import Mathlib

/-!
Verification of the spreadsheet repository's storage/migration layer.

The Go source keeps each record as a JSON document (`map[string]interface{}`)
inside a sqlite table `entries(id, data)`, plus a `views(id, name, data)`
table.  We embed the JSON-compatible values as the inductive `Val`, documents
as association lists with Go-map update semantics (`insertVal` replaces the
binding of an existing key in place), and the database as an explicit `DB`
state record.  Stored rows are either a well-formed document (`Stored.json`)
or text that does not deserialize as a JSON object (`Stored.raw`), mirroring
the two branches of `json.Unmarshal` in `getAllRows` / `updateField`.
-/

/-- JSON-compatible dynamic values, the image of Go's `interface{}` after
`encoding/json` round-trips.  `vInt` covers Go `int`/`int64` values, `vFloat`
Go `float64` (carried as a rational: no arithmetic is ever performed on it),
`vList` both `[]interface{}` and `[]string` (they serialize identically),
`vObj` nested objects. -/
inductive Val where
  | vNull : Val
  | vBool : Bool → Val
  | vInt : Int → Val
  | vFloat : Rat → Val
  | vStr : String → Val
  | vList : List Val → Val
  | vObj : List (String × Val) → Val

/-- A document: Go's `map[string]interface{}`.  Keys are unique in every map
the program builds; lookups take the first match. -/
def Doc : Type := List (String × Val)

/-- First-match association lookup: Go map read `m[k]`. -/
def findVal {α β : Type} [DecidableEq α] : List (α × β) → α → Option β
  | [], _ => none
  | (k', v) :: t, k => if k' = k then some v else findVal t k

/-- Go map write `m[k] = v`: replace the binding of `k` in place, or append. -/
def insertVal {α β : Type} [DecidableEq α] : List (α × β) → α → β → List (α × β)
  | [], k, v => [(k, v)]
  | (k', v') :: t, k, v =>
      if k' = k then (k, v) :: t else (k', v') :: insertVal t k v

/-- Left-biased choice on options (`a` wins when present). -/
def optOr {β : Type} : Option β → Option β → Option β
  | some v, _ => some v
  | none, b => b

/-- Last-match association lookup: the value the *last* occurrence of `k`
binds.  Folding Go-map writes over a pair list realizes this. -/
def findLastVal {α β : Type} [DecidableEq α] : List (α × β) → α → Option β
  | [], _ => none
  | (k', v) :: t, k =>
      optOr (findLastVal t k) (if k' = k then some v else none)

theorem optOr_none_left {β : Type} (b : Option β) : optOr none b = b := rfl

theorem optOr_none_right {β : Type} (a : Option β) : optOr a none = a := by
  cases a <;> rfl

theorem optOr_assoc {β : Type} (a b c : Option β) :
    optOr (optOr a b) c = optOr a (optOr b c) := by
  cases a <;> cases b <;> rfl

theorem optOr_eq_none_iff {β : Type} (a b : Option β) :
    optOr a b = none ↔ a = none ∧ b = none := by
  cases a <;> cases b <;> simp [optOr]

theorem findVal_insertVal {α β : Type} [DecidableEq α]
    (d : List (α × β)) (k : α) (v : β) (k' : α) :
    findVal (insertVal d k v) k' = if k = k' then some v else findVal d k' := by
  induction d with
  | nil =>
      by_cases h : k = k' <;> simp [insertVal, findVal, h]
  | cons p t ih =>
      obtain ⟨pk, pv⟩ := p
      by_cases h : pk = k
      · subst h
        by_cases h2 : pk = k'
        · subst h2; simp [insertVal, findVal]
        · simp [insertVal, findVal, h2]
      · by_cases h2 : pk = k'
        · subst h2
          have hne : ¬ k = pk := fun hk => h hk.symm
          simp [insertVal, findVal, h, hne]
        · simp [insertVal, findVal, h, h2, ih]

theorem mem_keys_insertVal {α β : Type} [DecidableEq α]
    (d : List (α × β)) (k : α) (v : β) (a : α) :
    a ∈ (insertVal d k v).map Prod.fst ↔ a ∈ d.map Prod.fst ∨ a = k := by
  induction d with
  | nil => simp [insertVal]
  | cons p t ih =>
      obtain ⟨pk, pv⟩ := p
      by_cases h : pk = k
      · subst h
        simp only [insertVal, if_pos, List.map_cons, List.mem_cons]
        tauto
      · simp only [insertVal, if_neg h, List.map_cons, List.mem_cons, ih]
        tauto

theorem nodupKeys_insertVal {α β : Type} [DecidableEq α]
    (d : List (α × β)) (k : α) (v : β)
    (h : (d.map Prod.fst).Nodup) : ((insertVal d k v).map Prod.fst).Nodup := by
  induction d with
  | nil => simp [insertVal]
  | cons p t ih =>
      obtain ⟨pk, pv⟩ := p
      simp only [List.map_cons, List.nodup_cons] at h
      by_cases hk : pk = k
      · subst hk
        simpa [insertVal, List.nodup_cons] using h
      · have ht := ih h.2
        simp only [insertVal, if_neg hk, List.map_cons, List.nodup_cons]
        refine ⟨?_, ht⟩
        rw [mem_keys_insertVal]
        rintro (h2 | rfl)
        · exact h.1 h2
        · exact hk rfl

theorem findVal_foldl_insertVal {α β : Type} [DecidableEq α]
    (d : List (α × β)) (m0 : List (α × β)) (k : α) :
    findVal (d.foldl (fun m kv => insertVal m kv.1 kv.2) m0) k =
      optOr (findLastVal d k) (findVal m0 k) := by
  induction d generalizing m0 with
  | nil => simp [findLastVal, optOr]
  | cons p t ih =>
      obtain ⟨pk, pv⟩ := p
      simp only [List.foldl_cons, ih, findLastVal]
      cases h : findLastVal t k with
      | some v => simp [optOr]
      | none =>
          simp only [optOr]
          rw [findVal_insertVal]
          by_cases hk : pk = k
          · subst hk; simp
          · have : ¬ pk = k := hk
            simp [this]

theorem nodupKeys_foldl_insertVal {α β : Type} [DecidableEq α]
    (d : List (α × β)) (m0 : List (α × β))
    (h : (m0.map Prod.fst).Nodup) :
    (((d.foldl (fun m kv => insertVal m kv.1 kv.2) m0)).map Prod.fst).Nodup := by
  induction d generalizing m0 with
  | nil => simpa
  | cons p t ih =>
      exact ih _ (nodupKeys_insertVal _ _ _ h)

theorem findVal_eq_none_iff {α β : Type} [DecidableEq α]
    (d : List (α × β)) (k : α) :
    findVal d k = none ↔ k ∉ d.map Prod.fst := by
  induction d with
  | nil => simp [findVal]
  | cons p t ih =>
      obtain ⟨pk, pv⟩ := p
      by_cases h : pk = k
      · subst h; simp [findVal]
      · have hne : ¬ k = pk := fun hk => h hk.symm
        simp [findVal, h, hne, ih]

theorem findLastVal_eq_none_iff {α β : Type} [DecidableEq α]
    (d : List (α × β)) (k : α) :
    findLastVal d k = none ↔ k ∉ d.map Prod.fst := by
  induction d with
  | nil => simp [findLastVal]
  | cons p t ih =>
      obtain ⟨pk, pv⟩ := p
      simp only [findLastVal, optOr_eq_none_iff, ih, List.map_cons,
        List.mem_cons]
      by_cases h : pk = k
      · subst h; simp
      · have hne : ¬ k = pk := fun hk => h hk.symm
        simp [h, hne]

theorem findLastVal_eq_findVal_of_nodup {α β : Type} [DecidableEq α]
    (d : List (α × β)) (k : α) (h : (d.map Prod.fst).Nodup) :
    findLastVal d k = findVal d k := by
  induction d with
  | nil => rfl
  | cons p t ih =>
      obtain ⟨pk, pv⟩ := p
      simp only [List.map_cons, List.nodup_cons] at h
      by_cases hk : pk = k
      · subst hk
        have h0 : findLastVal t pk = none :=
          (findLastVal_eq_none_iff t pk).mpr h.1
        simp [findLastVal, findVal, h0, optOr]
      · simp [findLastVal, findVal, hk, ih h.2, optOr_none_right]

theorem findVal_of_mem_nodup {α β : Type} [DecidableEq α]
    (d : List (α × β)) (k : α) (v : β)
    (hnd : (d.map Prod.fst).Nodup) (hm : (k, v) ∈ d) :
    findVal d k = some v := by
  induction d with
  | nil => cases hm
  | cons p t ih =>
      obtain ⟨pk, pv⟩ := p
      simp only [List.map_cons, List.nodup_cons] at hnd
      rcases List.mem_cons.mp hm with h | h
      · cases h
        simp [findVal]
      · have hne : pk ≠ k := by
          rintro rfl
          exact hnd.1 (List.mem_map.mpr ⟨(pk, v), h, rfl⟩)
        simp [findVal, hne, ih hnd.2 h]

/-! ## Schema (config.go / part_001) -/

/-- `FieldDef` describes one column/field from the config file.  The Go
struct's field `Type` is spelled `Typ` here (`Type` is reserved in Lean). -/
structure FieldDef where
  Name : String
  Typ : String
  Label : String
deriving DecidableEq

/-- The JSON path's per-token type normalization in `loadConfig`
(part_001 lines 33-38): `int`, `string`, `[]string`, `link` are kept,
anything else becomes `string`.  The Go `switch` is an if-chain. -/
def normalizeTypeJson (t : String) : String :=
  if t = "int" then t
  else if t = "string" then t
  else if t = "[]string" then t
  else if t = "link" then t
  else "string"

/-- `strings.HasPrefix s p`: does `s` start with `p`?  (Computed over the
character list so concrete instances evaluate.) -/
def goHasPrefix (s p : String) : Bool :=
  List.take p.length s.data == p.data

/-- The legacy free-text path's per-token type normalization in `loadConfig`
(part_001 lines 82-90): `int`, `string`, `[]string` are kept; any other
token that starts with `[]` is kept as-is; everything else becomes
`string`. -/
def normalizeTypeLegacy (t : String) : String :=
  if t = "int" then t
  else if t = "string" then t
  else if t = "[]string" then t
  else if goHasPrefix t "[]" then t
  else "string"

/-! ## Document store helpers (db.go) -/

/-- `getEmptyRowFromSchema`'s per-type default (the `switch` in db.go lines
292-302): `0` for `int`, `""` for `string`, `[]string{}` for `[]string`,
`""` for anything else (including `link`).  The empty Go `[]string{}`
serializes as the empty JSON list, embedded as `vList []`. -/
def defaultOfTyp (t : String) : Val :=
  if t = "int" then .vInt 0
  else if t = "string" then .vStr ""
  else if t = "[]string" then .vList []
  else .vStr ""

/-- `getEmptyRowFromSchema` (db.go lines 290-305): a map with default values
based on field types. -/
def getEmptyRowFromSchema (schema : List FieldDef) : Doc :=
  schema.foldl (fun m f => insertVal m f.Name (defaultOfTyp f.Typ)) []

/-- `mergeWithSchema` (part_000 lines 103-112): a copy of `data` overlaid on
the defaults from `schema`.  A Go `nil` map behaves as the empty list. -/
def mergeWithSchema (schema : List FieldDef) (data : Doc) : Doc :=
  data.foldl (fun m kv => insertVal m kv.1 kv.2) (getEmptyRowFromSchema schema)

/-- `attachIDToDataMap` (db.go lines 308-315): a copy of `data` with the
`ID` field included. -/
def attachIDToDataMap (id : Nat) (data : Doc) : Doc :=
  insertVal data "ID" (.vInt id)

theorem getEmptyRowFromSchema_eq_foldl (schema : List FieldDef) :
    getEmptyRowFromSchema schema =
      (schema.map fun f => (f.Name, defaultOfTyp f.Typ)).foldl
        (fun m kv => insertVal m kv.1 kv.2) [] := by
  rw [List.foldl_map]
  rfl

theorem findVal_getEmptyRowFromSchema (schema : List FieldDef) (k : String) :
    findVal (getEmptyRowFromSchema schema) k =
      findLastVal (schema.map fun f => (f.Name, defaultOfTyp f.Typ)) k := by
  rw [getEmptyRowFromSchema_eq_foldl, findVal_foldl_insertVal]
  simp [findVal, optOr_none_right]

theorem nodupKeys_getEmptyRowFromSchema (schema : List FieldDef) :
    ((getEmptyRowFromSchema schema).map Prod.fst).Nodup := by
  rw [getEmptyRowFromSchema_eq_foldl]
  exact nodupKeys_foldl_insertVal _ _ (by simp)

theorem findVal_mergeWithSchema (schema : List FieldDef) (data : Doc)
    (k : String) :
    findVal (mergeWithSchema schema data) k =
      optOr (findLastVal data k) (findVal (getEmptyRowFromSchema schema) k) :=
  findVal_foldl_insertVal data _ k

theorem nodupKeys_mergeWithSchema (schema : List FieldDef) (data : Doc) :
    ((mergeWithSchema schema data).map Prod.fst).Nodup :=
  nodupKeys_foldl_insertVal data _ (nodupKeys_getEmptyRowFromSchema schema)

/-! ## Database state (db.go) -/

/-- One stored `entries.data` text: either text that deserializes as a JSON
object (kept as the parsed document — serializing a document always yields
such text), or text that does not (`raw`). -/
inductive Stored where
  | json : Doc → Stored
  | raw : String → Stored

/-- A saved view: `View` struct of db.go (id, name and the parsed JSON list
of column names). -/
structure View where
  id : Nat
  name : String
  columns : List String

/-- The sqlite state the program manipulates: the `entries` and `views`
tables (kept in ascending-id insertion order) with their `sqlite_sequence`
autoincrement counters. -/
structure DB where
  entries : List (Nat × Stored)
  entrySeq : Nat
  views : List View
  viewSeq : Nat

/-- A freshly initialized store: `initializeDB` on a new file creates the
two empty tables (no migration runs: the new `entries` table has the `data`
column). -/
def freshDB : DB := ⟨[], 0, [], 0⟩

/-- `insertRow` (db.go lines 213-223): marshal the document (never fails on
map values) and insert; sqlite assigns the next autoincrement id. -/
def insertRow (db : DB) (data : Doc) : Nat × DB :=
  let id := db.entrySeq + 1
  (id, { db with entries := db.entries ++ [(id, Stored.json data)],
                 entrySeq := id })

/-- The document `getAllRows` returns for one stored text (db.go lines
240-244): the parsed object, or `{"_raw": dataStr}` when the text does not
unmarshal. -/
def storedDoc : Stored → Doc
  | .json d => d
  | .raw s => [("_raw", .vStr s)]

/-- `getAllRows` (db.go lines 226-251): all rows ordered by id, JSON data
parsed, unparsable data kept under `"_raw"`. -/
def getAllRows (db : DB) : List (Nat × Doc) :=
  db.entries.map fun e => (e.1, storedDoc e.2)

/-- `updateField` (db.go lines 254-271): load the row (`QueryRow` fails with
`sql.ErrNoRows` when the id is absent), unmarshal — an unparsable text
becomes the empty map — set the field, marshal and write back. -/
def updateField (db : DB) (id : Nat) (field : String) (value : Val) :
    Except String DB :=
  match findVal db.entries id with
  | none => .error "sql: no rows in result set"
  | some st =>
      let m : Doc := match st with
        | .json d => d
        | .raw _ => []
      let m2 := insertVal m field value
      .ok { db with entries :=
              db.entries.map fun e => if e.1 = id then (id, Stored.json m2) else e }

/-- `deleteRow` (db.go lines 274-277). -/
def deleteRow (db : DB) (id : Nat) : DB :=
  { db with entries := db.entries.filter fun e => e.1 ≠ id }

/-- `replaceRow` (db.go lines 280-287). -/
def replaceRow (db : DB) (id : Nat) (data : Doc) : DB :=
  { db with entries :=
      db.entries.map fun e => if e.1 = id then (id, Stored.json data) else e }

/-- `getAllViews` (db.go lines 326-351): all stored views ordered by id. -/
def getAllViews (db : DB) : List View := db.views

/-- `insertView` (db.go lines 354-364). -/
def insertView (db : DB) (name : String) (cols : List String) : Nat × DB :=
  let id := db.viewSeq + 1
  (id, { db with views := db.views ++ [⟨id, name, cols⟩], viewSeq := id })

/-- `updateView` (db.go lines 367-374): a bare SQL `UPDATE ... WHERE id = ?`.
An id that matches no row affects zero rows and reports no error. -/
def updateView (db : DB) (id : Nat) (name : String) (cols : List String) :
    Except String DB :=
  .ok { db with views :=
          db.views.map fun v => if v.id = id then ⟨id, name, cols⟩ else v }

/-- `deleteView` (db.go lines 377-380). -/
def deleteView (db : DB) (id : Nat) : DB :=
  { db with views := db.views.filter fun v => v.id ≠ id }

/-- `deleteAllViews` (db.go lines 383-386). -/
def deleteAllViews (db : DB) : DB := { db with views := [] }

/-! ## Legacy migration (db.go lines 104-207) -/

/-- A value scanned from a legacy sqlite column into `interface{}`:
`int64`, `float64`, `[]byte`, `string`, `nil`, or anything else carried by
its `fmt` text. -/
inductive SqlVal where
  | sInt : Int → SqlVal
  | sFloat : Rat → SqlVal
  | sBytes : String → SqlVal
  | sStr : String → SqlVal
  | sNull : SqlVal
  | sOther : String → SqlVal
deriving DecidableEq

/-- `fmt.Sscanf("%v"-text, "%d", &idInt)` for the migration's id fallback:
the integer spelled by an optional sign and leading digits, `0` when the
text starts with none (the scan error leaves `idInt` at its zero value). -/
def sscanfInt (s : String) : Int :=
  let neg := s.startsWith "-"
  let t := if s.startsWith "-" ∨ s.startsWith "+" then s.drop 1 else s
  let digits := t.takeWhile Char.isDigit
  if digits.isEmpty then 0
  else
    let n := digits.foldl (fun a c => a * 10 + (c.toNat - '0'.toNat)) 0
    if neg then -(n : Int) else (n : Int)

/-- The textual `%v` form the migration's fallback branches print.  Floats
use an abstract injective spelling; no claim observes it. -/
def sqlValText : SqlVal → String
  | .sInt n => toString n
  | .sFloat q => toString q
  | .sBytes s => s
  | .sStr s => s
  | .sNull => "<nil>"
  | .sOther t => t

/-- The migration loop's type coercion for one non-id column value (the
`switch` at db.go lines 160-171): `int64` passes through as an int,
`float64` is kept as a float, `[]byte` and `string` become strings, `nil`
stays null, anything else takes its `%v` text. -/
def coerceLegacyVal : SqlVal → Val
  | .sInt v => .vInt v
  | .sFloat v => .vFloat v
  | .sBytes b => .vStr b
  | .sStr s => .vStr s
  | .sNull => .vNull
  | .sOther t => .vStr (sqlValText (.sOther t))

/-- One iteration of db.go's migration column loop (lines 140-172): the
`id` column updates `idInt` (`int64` directly, `nil` leaves 0, anything
else through `Sscanf` of its `%v` text) and is not copied; every other
column is coerced into the document. -/
def migrationScanStep (acc : Int × Doc) (cv : String × SqlVal) : Int × Doc :=
  if cv.1 = "id" then
    (match cv.2 with
     | .sInt t => t
     | .sNull => 0
     | v => sscanfInt (sqlValText v), acc.2)
  else
    (acc.1, insertVal acc.2 cv.1 (coerceLegacyVal cv.2))

/-- One row of db.go's migration loop (lines 138-172): fold the scan step
over the row's columns, starting from `idInt = 0` and the empty document. -/
def buildMigrationDoc (cols : List (String × SqlVal)) : Int × Doc :=
  cols.foldl migrationScanStep (0, [])

/-- The migration block (db.go lines 104-207) applied to the legacy rows in
their `ORDER BY id` order: each row's document is inserted into
`entries_new` under its explicit id when positive (sqlite bumps the
sequence past explicit ids; a duplicate explicit id fails and the row is
skipped), otherwise under a fresh autoincrement id; finally the
autoincrement counter is re-synchronized to `MAX(id)` (skipped when the
table is empty, where `MAX(id)` scans as NULL). -/
def migrateLegacyRows (rows : List (List (String × SqlVal))) : DB :=
  let db1 := rows.foldl
    (fun db row =>
      let r := buildMigrationDoc row
      if r.1 > 0 then
        if db.entries.any (fun e => e.1 = r.1.toNat) then db
        else { db with entries := db.entries ++ [(r.1.toNat, Stored.json r.2)],
                       entrySeq := max db.entrySeq r.1.toNat }
      else
        { db with entries := db.entries ++ [(db.entrySeq + 1, Stored.json r.2)],
                  entrySeq := db.entrySeq + 1 })
    freshDB
  if db1.entries.isEmpty then db1
  else { db1 with entrySeq := db1.entries.foldl (fun a e => max a e.1) 0 }

/-! ## Import / export (part_000, openBtn and saveBtn handlers) -/

/-- How `encoding/json` marshals the export's Go slices: a nil slice — and
the export slices are nil exactly when empty — becomes JSON `null`,
otherwise a JSON array. -/
def encodeList (l : List Val) : Val :=
  if l.isEmpty then .vNull else .vList l

/-- Unmarshal a JSON array's items into Go documents: every item must be an
object, otherwise `json.Unmarshal` into `[]map[string]interface{}` fails. -/
def decodeDocItems : List Val → Option (List Doc)
  | [] => some []
  | Val.vObj fs :: rest => (decodeDocItems rest).map (fun l => fs :: l)
  | _ => none

/-- Unmarshal a JSON value into `[]map[string]interface{}`: `null` gives the
nil slice, an array decodes item-wise, anything else fails. -/
def decodeDocList : Val → Option (List Doc)
  | .vNull => some []
  | .vList items => decodeDocItems items
  | _ => none

/-- The strings of a JSON array (the `Columns` field of an imported view;
only well-formed string items occur in the claims' inputs). -/
def decodeStrings (l : List Val) : List String :=
  l.filterMap fun v => match v with | .vStr s => some s | _ => none

/-- One imported view object: its `Name` string and `Columns` string list,
with Go's zero values for missing/mismatched fields. -/
def decodeViewItem : Val → Option (String × List String)
  | .vObj fs =>
      let name := match findVal fs "Name" with | some (.vStr s) => s | _ => ""
      let cols := match findVal fs "Columns" with
        | some (.vList items) => decodeStrings items
        | _ => []
      some (name, cols)
  | _ => none

/-- The `views` value of an imported object: the import handler ignores the
unmarshal error (`_ = json.Unmarshal`), so a `null` or mismatched value
leaves the slice nil. -/
def decodeViews : Val → List (String × List String)
  | .vList items => items.filterMap decodeViewItem
  | _ => []

/-- The import loop over decoded entries: `mergeWithSchema(schema, e)` then
`insertRow` for each (inserting a marshalable map never fails). -/
def insertDocsMerged (schema : List FieldDef) (db : DB) (docs : List Doc) :
    DB :=
  docs.foldl (fun db e => (insertRow db (mergeWithSchema schema e)).2) db

/-- The import loop over decoded views: `insertView` for each. -/
def insertViewsList (db : DB) (vs : List (String × List String)) : DB :=
  vs.foldl (fun db v => (insertView db v.1 v.2).2) db

/-- The `openBtn` import handler (part_000 lines 345-416) after the byte
buffer has parsed as the JSON value `j`.  Note the order of operations in
the source: `DELETE FROM entries` runs before the shape dispatch, so the
`default: unknown import format` branch reports its error with the entries
already cleared.  Returns the resulting state and the surfaced error, if
any. -/
def importParsed (schema : List FieldDef) (db : DB) (j : Val) :
    DB × Option String :=
  -- clear existing entries
  let db1 : DB := { db with entries := [] }
  match j with
  | .vList items =>
      -- legacy array of objects
      match decodeDocItems items with
      | none => (db1, some "json: cannot unmarshal")
      | some entries => (insertDocsMerged schema db1 entries, none)
  | .vObj fields =>
      -- expecting keys "entries" and optional "views"
      let afterEntries : DB × Option String :=
        match findVal fields "entries" with
        | none => (db1, none)
        | some rawEntries =>
            match decodeDocList rawEntries with
            | none => (db1, some "json: cannot unmarshal")
            | some entries => (insertDocsMerged schema db1 entries, none)
      match afterEntries with
      | (db2, some e) => (db2, some e)
      | (db2, none) =>
          match findVal fields "views" with
          | none => (db2, none)
          | some rawViews =>
              let vs := decodeViews rawViews
              let db3 := deleteAllViews db2
              (insertViewsList db3 vs, none)
  | _ => (db1, some "unknown import format")

/-- One exported view as the `saveBtn` handler builds it:
`{"Name": ..., "Columns": [...]}`. -/
def viewToExportObj (v : View) : Val :=
  .vObj [("Name", .vStr v.name), ("Columns", .vList (v.columns.map Val.vStr))]

/-- The `saveBtn` export handler (part_000 lines 426-479): every row merged
with the schema and its id attached under `ID`, the views as
`{Name, Columns}`, wrapped in `{"entries": ..., "views": ...}`. -/
def exportStore (schema : List FieldDef) (db : DB) : Val :=
  let entries := (getAllRows db).map fun r =>
    Val.vObj (attachIDToDataMap r.1 (mergeWithSchema schema r.2))
  let exportedViews := (getAllViews db).map viewToExportObj
  .vObj [("entries", encodeList entries), ("views", encodeList exportedViews)]

/-- The store's merged documents, as the round-trip property compares them:
every listed row's document merged against the schema. -/
def mergedDocs (schema : List FieldDef) (db : DB) : List Doc :=
  (getAllRows db).map fun r => mergeWithSchema schema r.2

/-- The persisted content of a view, ids aside. -/
def viewPairs (db : DB) : List (String × List String) :=
  db.views.map fun v => (v.name, v.columns)

/-! ## Supporting lemmas for the claims -/

theorem findVal_getEmptyRow_of_mem (S : List FieldDef) (f : FieldDef)
    (hS : (S.map FieldDef.Name).Nodup) (hf : f ∈ S) :
    findVal (getEmptyRowFromSchema S) f.Name = some (defaultOfTyp f.Typ) := by
  have hkeys : ((S.map fun g => (g.Name, defaultOfTyp g.Typ)).map Prod.fst).Nodup := by
    simpa [List.map_map, Function.comp] using hS
  rw [findVal_getEmptyRowFromSchema, findLastVal_eq_findVal_of_nodup _ _ hkeys]
  exact findVal_of_mem_nodup _ _ _ hkeys (List.mem_map.mpr ⟨f, hf, rfl⟩)

theorem findVal_getEmptyRow_of_not_mem (S : List FieldDef) (k : String)
    (hk : ∀ f ∈ S, f.Name ≠ k) :
    findVal (getEmptyRowFromSchema S) k = none := by
  rw [findVal_getEmptyRowFromSchema]
  rw [findLastVal_eq_none_iff]
  intro hmem
  obtain ⟨p, hp, hfst⟩ := List.mem_map.mp hmem
  obtain ⟨f, hf, rfl⟩ := List.mem_map.mp hp
  exact hk f hf hfst

/-! ## Claims -/

/-- C1: for every schema `S` and document `D` (Go maps: no duplicate keys),
`mergeWithSchema S D` binds every field of `S` absent from `D` to its
type-appropriate zero value (`0` for int, `""` for string, the empty list
for `[]string`, `""` for link and any other token), keeps every key present
in `D` at its `D`-value — in particular keys not named in `S` pass through
unchanged — and contains no further keys. -/
theorem c1_mergeWithSchema_defaults_overlay (S : List FieldDef) (D : Doc)
    (hS : (S.map FieldDef.Name).Nodup) (hD : (D.map Prod.fst).Nodup) :
    (∀ f ∈ S, findVal D f.Name = none →
      findVal (mergeWithSchema S D) f.Name =
        some (if f.Typ = "int" then Val.vInt 0
              else if f.Typ = "string" then Val.vStr ""
              else if f.Typ = "[]string" then Val.vList []
              else Val.vStr "")) ∧
    (∀ k v, findVal D k = some v → findVal (mergeWithSchema S D) k = some v) ∧
    (∀ k, findVal D k = none → (∀ f ∈ S, f.Name ≠ k) →
      findVal (mergeWithSchema S D) k = none) := by
  refine ⟨?_, ?_, ?_⟩
  · intro f hf hnone
    rw [findVal_mergeWithSchema]
    have h1 : findLastVal D f.Name = none := by
      rw [findLastVal_eq_none_iff]
      exact (findVal_eq_none_iff D f.Name).mp hnone
    rw [h1, optOr_none_left, findVal_getEmptyRow_of_mem S f hS hf]
    simp [defaultOfTyp]
  · intro k v hv
    rw [findVal_mergeWithSchema, findLastVal_eq_findVal_of_nodup _ _ hD, hv]
    rfl
  · intro k hnone hout
    rw [findVal_mergeWithSchema]
    have h1 : findLastVal D k = none := by
      rw [findLastVal_eq_none_iff]
      exact (findVal_eq_none_iff D k).mp hnone
    rw [h1, optOr_none_left]
    exact findVal_getEmptyRow_of_not_mem S k hout

/-- C1 witness: the theorem applied to the schema
`[n:int, s:string, l:[]string, lk:link]` and the document
`{s: "hi", extra: 7}`. -/
theorem c1_witness :
    findVal (mergeWithSchema
      [⟨"n", "int", "n"⟩, ⟨"s", "string", "s"⟩, ⟨"l", "[]string", "l"⟩,
       ⟨"lk", "link", "lk"⟩]
      [("s", Val.vStr "hi"), ("extra", Val.vInt 7)]) "n" = some (Val.vInt 0) ∧
    findVal (mergeWithSchema
      [⟨"n", "int", "n"⟩, ⟨"s", "string", "s"⟩, ⟨"l", "[]string", "l"⟩,
       ⟨"lk", "link", "lk"⟩]
      [("s", Val.vStr "hi"), ("extra", Val.vInt 7)]) "lk" = some (Val.vStr "") ∧
    findVal (mergeWithSchema
      [⟨"n", "int", "n"⟩, ⟨"s", "string", "s"⟩, ⟨"l", "[]string", "l"⟩,
       ⟨"lk", "link", "lk"⟩]
      [("s", Val.vStr "hi"), ("extra", Val.vInt 7)]) "extra" = some (Val.vInt 7) ∧
    findVal (mergeWithSchema
      [⟨"n", "int", "n"⟩, ⟨"s", "string", "s"⟩, ⟨"l", "[]string", "l"⟩,
       ⟨"lk", "link", "lk"⟩]
      [("s", Val.vStr "hi"), ("extra", Val.vInt 7)]) "zz" = none := by
  have h := c1_mergeWithSchema_defaults_overlay
    [⟨"n", "int", "n"⟩, ⟨"s", "string", "s"⟩, ⟨"l", "[]string", "l"⟩,
     ⟨"lk", "link", "lk"⟩]
    [("s", Val.vStr "hi"), ("extra", Val.vInt 7)]
    (by decide) (by decide)
  refine ⟨?_, ?_, ?_, ?_⟩
  · simpa using h.1 ⟨"n", "int", "n"⟩ (by simp) rfl
  · simpa using h.1 ⟨"lk", "link", "lk"⟩ (by simp) rfl
  · exact h.2.1 "extra" (Val.vInt 7) rfl
  · exact h.2.2 "zz" rfl (by simp)

/-- C2: merging against the schema is idempotent — for Go maps, equality is
key-by-key, so `mergeWithSchema S (mergeWithSchema S D)` and
`mergeWithSchema S D` agree at every key. -/
theorem c2_mergeWithSchema_idempotent (S : List FieldDef) (D : Doc)
    (k : String) :
    findVal (mergeWithSchema S (mergeWithSchema S D)) k =
      findVal (mergeWithSchema S D) k := by
  rw [findVal_mergeWithSchema S (mergeWithSchema S D) k,
    findLastVal_eq_findVal_of_nodup _ _ (nodupKeys_mergeWithSchema S D)]
  cases h : findVal (mergeWithSchema S D) k with
  | some v => rfl
  | none =>
      have h2 := (findVal_mergeWithSchema S D k).symm.trans h
      have h3 := (optOr_eq_none_iff _ _).mp h2
      simp [optOr, h3.2]

/-- C7 counterexample: `updateView` on an id absent from the views table
(the fresh store has none) succeeds — it returns `ok` with the store
unchanged, not an error, because the SQL `UPDATE` of zero rows reports no
error. -/
theorem c7_counterexample :
    freshDB.views = [] ∧
    updateView freshDB 1 "n" [] = Except.ok freshDB := by
  exact ⟨rfl, rfl⟩

/-- C7 amended: `updateView id name cols` never fails; when `id` is present
it overwrites that view's name and columns, and when `id` is absent the
store is returned unchanged (a no-op, not an error). -/
theorem c7_updateView_total (db : DB) (id : Nat) (name : String)
    (cols : List String) :
    ∃ db', updateView db id name cols = Except.ok db' ∧
      (∀ v ∈ db.views, v.id ≠ id → v ∈ db'.views) ∧
      (∀ v ∈ db.views, v.id = id → (⟨id, name, cols⟩ : View) ∈ db'.views) ∧
      ((∀ v ∈ db.views, v.id ≠ id) → db' = db) := by
  refine ⟨_, rfl, ?_, ?_, ?_⟩
  · intro v hv hne
    exact List.mem_map.mpr ⟨v, hv, by simp [hne]⟩
  · intro v hv heq
    exact List.mem_map.mpr ⟨v, hv, by simp [heq]⟩
  · intro hall
    have hmap : ∀ l : List View, (∀ v ∈ l, v.id ≠ id) →
        (l.map fun v => if v.id = id then ⟨id, name, cols⟩ else v) = l := by
      intro l hl
      induction l with
      | nil => rfl
      | cons v t ih =>
          simp only [List.map_cons, if_neg (hl v (List.mem_cons_self v t))]
          rw [ih fun w hw => hl w (List.mem_cons_of_mem v hw)]
    cases db
    simp_all

/-- C9: a stored row whose data text does not parse as JSON is still listed
(no row is dropped: the listing has one entry per row), and its document
carries the original text losslessly under the sentinel key `"_raw"`. -/
theorem c9_getAllRows_raw_preserved (db : DB) (id : Nat) (s : String)
    (h : (id, Stored.raw s) ∈ db.entries) :
    (id, [("_raw", Val.vStr s)]) ∈ getAllRows db ∧
    (getAllRows db).length = db.entries.length := by
  constructor
  · exact List.mem_map.mpr ⟨(id, Stored.raw s), h, rfl⟩
  · simp [getAllRows]

/-- C9 witness: the theorem applied to a store holding one corrupt row. -/
theorem c9_witness :
    (5, [("_raw", Val.vStr "oops")]) ∈
      getAllRows ⟨[(5, Stored.raw "oops")], 5, [], 0⟩ ∧
    (getAllRows ⟨[(5, Stored.raw "oops")], 5, [], 0⟩).length = 1 := by
  have h := c9_getAllRows_raw_preserved ⟨[(5, Stored.raw "oops")], 5, [], 0⟩
    5 "oops" (List.mem_singleton.mpr rfl)
  exact ⟨h.1, h.2⟩

/-- C10: `updateField` on a row whose stored text is not valid JSON does not
report the parse failure: it succeeds, and the row's new stored document is
exactly the one-key map `{field: value}` — the original raw text is gone
and, for any field other than `"_raw"`, nothing sits under the sentinel key
the listing would have used. -/
theorem c10_updateField_discards_raw (db : DB) (id : Nat) (s : String)
    (field : String) (value : Val)
    (hmem : (id, Stored.raw s) ∈ db.entries)
    (hnd : (db.entries.map Prod.fst).Nodup)
    (hfield : field ≠ "_raw") :
    ∃ db', updateField db id field value = Except.ok db' ∧
      (id, Stored.json [(field, value)]) ∈ db'.entries ∧
      db'.entries.length = db.entries.length ∧
      findVal ([(field, value)] : Doc) "_raw" = none := by
  have hfind : findVal db.entries id = some (Stored.raw s) :=
    findVal_of_mem_nodup _ _ _ hnd hmem
  refine ⟨{ db with entries := db.entries.map fun e =>
      if e.1 = id then (id, Stored.json (insertVal ([] : Doc) field value))
      else e }, ?_, ?_, ?_, ?_⟩
  · simp only [updateField, hfind]
  · exact List.mem_map.mpr ⟨(id, Stored.raw s), hmem, by simp [insertVal]⟩
  · simp
  · simp [findVal, hfield]

/-- C10 witness: the theorem applied to a store holding one corrupt row. -/
theorem c10_witness :
    ∃ db', updateField ⟨[(2, Stored.raw "junk")], 2, [], 0⟩ 2 "f" (Val.vStr "v")
        = Except.ok db' ∧
      (2, Stored.json [("f", Val.vStr "v")]) ∈ db'.entries ∧
      db'.entries.length = 1 ∧
      findVal ([("f", Val.vStr "v")] : Doc) "_raw" = none := by
  exact c10_updateField_discards_raw ⟨[(2, Stored.raw "junk")], 2, [], 0⟩
    2 "junk" "f" (Val.vStr "v") (List.mem_singleton.mpr rfl) (by simp)
    (by decide)

/-- C8 counterexample: the two normalization paths disagree — the legacy
free-text path degrades `link` to `string` (the JSON path keeps it) and
keeps `[]int` as-is (the JSON path degrades it to `string`). -/
theorem c8_counterexample :
    normalizeTypeLegacy "link" = "string" ∧
    normalizeTypeJson "link" = "link" ∧
    normalizeTypeLegacy "link" ≠ normalizeTypeJson "link" ∧
    normalizeTypeLegacy "[]int" = "[]int" ∧
    normalizeTypeJson "[]int" = "string" := by
  refine ⟨by decide, by decide, by decide, by decide, by decide⟩

/-- C8 amended: the legacy path reproduces the JSON path's normalization
only away from the divergent tokens — for every token that is not `link`
and is not a `[]`-prefixed token other than `[]string`, the two paths
agree. -/
theorem c8_normalization_agreement (t : String)
    (hlink : t ≠ "link") (hsl : goHasPrefix t "[]" = true → t = "[]string") :
    normalizeTypeLegacy t = normalizeTypeJson t := by
  by_cases h1 : t = "int"
  · simp [normalizeTypeLegacy, normalizeTypeJson, h1]
  by_cases h2 : t = "string"
  · simp [normalizeTypeLegacy, normalizeTypeJson, h1, h2]
  by_cases h3 : t = "[]string"
  · simp [normalizeTypeLegacy, normalizeTypeJson, h1, h2, h3]
  by_cases h4 : goHasPrefix t "[]" = true
  · exact absurd (hsl h4) h3
  · simp [normalizeTypeLegacy, normalizeTypeJson, h1, h2, h3, h4, hlink]

/-- C8 witness: the agreement theorem applied to the token `[]string`. -/
theorem c8_witness :
    normalizeTypeLegacy "[]string" = normalizeTypeJson "[]string" :=
  c8_normalization_agreement "[]string" (by decide) (fun _ => rfl)

theorem snd_foldl_migrationScanStep (cols : List (String × SqlVal))
    (acc : Int × Doc) :
    (cols.foldl migrationScanStep acc).2 =
      cols.foldl (fun m cv => if cv.1 = "id" then m
        else insertVal m cv.1 (coerceLegacyVal cv.2)) acc.2 := by
  induction cols generalizing acc with
  | nil => rfl
  | cons cv t ih =>
      have hstep : (migrationScanStep acc cv).2 =
          (if cv.1 = "id" then acc.2
           else insertVal acc.2 cv.1 (coerceLegacyVal cv.2)) := by
        by_cases h : cv.1 = "id" <;> simp [migrationScanStep, h]
      rw [List.foldl_cons, List.foldl_cons, ih, hstep]

theorem condFold_eq_foldl_insert (cols : List (String × SqlVal)) (m0 : Doc) :
    cols.foldl (fun m cv => if cv.1 = "id" then m
        else insertVal m cv.1 (coerceLegacyVal cv.2)) m0 =
      ((cols.filter fun cv => cv.1 ≠ "id").map
          fun cv => (cv.1, coerceLegacyVal cv.2)).foldl
        (fun m kv => insertVal m kv.1 kv.2) m0 := by
  induction cols generalizing m0 with
  | nil => rfl
  | cons cv t ih =>
      by_cases h : cv.1 = "id" <;>
        simp [List.filter_cons, h, ih]

/-- C4 amended: during legacy migration, each row's document binds every
non-id column to its coerced value, where the coercion is: integer values
pass through as integers, byte/text values become strings, null stays
null, floating-point values pass through unchanged as floats (they are
*not* stringified), and any remaining value takes its generic `%v` text. -/
theorem c4_migration_column_coercion (cols : List (String × SqlVal))
    (hnd : (cols.map Prod.fst).Nodup) (c : String) (v : SqlVal)
    (hc : c ≠ "id") (hm : (c, v) ∈ cols) :
    findVal (buildMigrationDoc cols).2 c =
      some (match v with
            | .sInt n => Val.vInt n
            | .sFloat q => Val.vFloat q
            | .sBytes b => Val.vStr b
            | .sStr s => Val.vStr s
            | .sNull => Val.vNull
            | .sOther t => Val.vStr (sqlValText (SqlVal.sOther t))) := by
  have key : findVal (buildMigrationDoc cols).2 c = some (coerceLegacyVal v) := by
    unfold buildMigrationDoc
    rw [snd_foldl_migrationScanStep, condFold_eq_foldl_insert,
      findVal_foldl_insertVal]
    have hkeys : ((((cols.filter fun cv => cv.1 ≠ "id")).map
        fun cv => (cv.1, coerceLegacyVal cv.2)).map Prod.fst).Nodup := by
      have h1 : (((cols.filter fun cv => cv.1 ≠ "id")).map
          (fun cv => (cv.1, coerceLegacyVal cv.2))).map Prod.fst =
            ((cols.filter fun cv => cv.1 ≠ "id")).map Prod.fst := by
        simp [List.map_map, Function.comp]
      rw [h1]
      exact ((List.filter_sublist cols).map Prod.fst).nodup hnd
    have hmemL : (c, coerceLegacyVal v) ∈
        ((cols.filter fun cv => cv.1 ≠ "id")).map
          fun cv => (cv.1, coerceLegacyVal cv.2) :=
      List.mem_map.mpr ⟨(c, v), List.mem_filter.mpr ⟨hm, by simp [hc]⟩, rfl⟩
    rw [findLastVal_eq_findVal_of_nodup _ _ hkeys,
      findVal_of_mem_nodup _ _ _ hkeys hmemL]
    rfl
  cases v <;> exact key

/-- C4 witness: the theorem applied to the row `(id: 9, a: "x")`. -/
theorem c4_witness :
    findVal (buildMigrationDoc
      [("id", SqlVal.sInt 9), ("a", SqlVal.sStr "x")]).2 "a" =
      some (Val.vStr "x") :=
  c4_migration_column_coercion [("id", SqlVal.sInt 9), ("a", SqlVal.sStr "x")]
    (by decide) "a" (SqlVal.sStr "x") (by decide) (by simp)

/-- C4 counterexample: a `float64` column value (here 5/2) is carried into
the migrated document unchanged as a float — not converted to its generic
textual (string) representation as the claim states. -/
theorem c4_counterexample :
    (buildMigrationDoc [("a", SqlVal.sFloat (5/2))]).2 =
      [("a", Val.vFloat (5/2))] ∧
    Val.vFloat (5/2) ≠ Val.vStr (sqlValText (SqlVal.sFloat (5/2))) := by
  refine ⟨rfl, fun h => Val.noConfusion h⟩

/-- C5: the migration scenario — legacy columns `(id, a, b)` with rows
`(1, "x", 5)` and `(2, "y", 6)` migrate to exactly two listed documents
`{"a": "x", "b": 5}` and `{"a": "y", "b": 6}` with ids 1 and 2 preserved,
and the next insert is assigned id 3 (the autoincrement counter was
re-synchronized to the maximum id). -/
theorem c5_migration_scenario :
    getAllRows (migrateLegacyRows
        [[("id", SqlVal.sInt 1), ("a", SqlVal.sStr "x"), ("b", SqlVal.sInt 5)],
         [("id", SqlVal.sInt 2), ("a", SqlVal.sStr "y"), ("b", SqlVal.sInt 6)]]) =
      [(1, [("a", Val.vStr "x"), ("b", Val.vInt 5)]),
       (2, [("a", Val.vStr "y"), ("b", Val.vInt 6)])] ∧
    (insertRow (migrateLegacyRows
        [[("id", SqlVal.sInt 1), ("a", SqlVal.sStr "x"), ("b", SqlVal.sInt 5)],
         [("id", SqlVal.sInt 2), ("a", SqlVal.sStr "y"), ("b", SqlVal.sInt 6)]])
      ([] : Doc)).1 = 3 := by
  exact ⟨rfl, rfl⟩

/-- C6 counterexample: importing the JSON value `"hello"` (valid JSON,
neither array nor object) into a store holding one entry reports the
format error — but the store's entries have already been deleted, not
left unchanged as the claim states. -/
theorem c6_counterexample :
    (importParsed [] ⟨[(1, Stored.json [("x", Val.vInt 3)])], 1,
        [⟨1, "v", ["a"]⟩], 1⟩ (Val.vStr "hello")).2 =
      some "unknown import format" ∧
    (importParsed [] ⟨[(1, Stored.json [("x", Val.vInt 3)])], 1,
        [⟨1, "v", ["a"]⟩], 1⟩ (Val.vStr "hello")).1.entries = [] ∧
    (⟨[(1, Stored.json [("x", Val.vInt 3)])], 1, [⟨1, "v", ["a"]⟩], 1⟩ :
        DB).entries ≠ [] := by
  refine ⟨rfl, rfl, ?_⟩
  exact List.cons_ne_nil _ _

/-- C6 amended: on a top-level JSON value that is neither an array nor an
object the import reports the `unknown import format` error, but the
destructive `DELETE FROM entries` has already run (it precedes the shape
dispatch): the resulting store has no entries, while the views are left
untouched.  Entries survive only when the bytes fail to parse as JSON at
all (no `importParsed` call happens then). -/
theorem c6_import_format_error (schema : List FieldDef) (db : DB) (j : Val)
    (h : match j with
         | .vList _ => False
         | .vObj _ => False
         | _ => True) :
    importParsed schema db j =
      ({ db with entries := [] }, some "unknown import format") := by
  cases j <;> first | exact (h : False).elim | rfl

/-- C6 witness: the amended theorem applied to the JSON value `true`. -/
theorem c6_witness :
    importParsed [] freshDB (Val.vBool true) =
      (freshDB, some "unknown import format") :=
  c6_import_format_error [] freshDB (Val.vBool true) trivial

/-! ## Round-trip lemmas for C3 -/

theorem decodeDocItems_map_vObj {γ : Type} (l : List γ) (f : γ → Doc) :
    decodeDocItems (l.map fun x => Val.vObj (f x)) = some (l.map f) := by
  induction l with
  | nil => rfl
  | cons x t ih => simp [decodeDocItems, ih]

theorem decodeDocList_encode_objs {γ : Type} (l : List γ) (f : γ → Doc) :
    decodeDocList (encodeList (l.map fun x => Val.vObj (f x))) =
      some (l.map f) := by
  cases l with
  | nil => rfl
  | cons x t =>
      simp only [List.map_cons, encodeList, List.isEmpty_cons, Bool.false_eq_true,
        if_false, decodeDocList]
      exact decodeDocItems_map_vObj (x :: t) f

theorem decodeStrings_map_vStr (l : List String) :
    decodeStrings (l.map Val.vStr) = l := by
  induction l with
  | nil => rfl
  | cons s t ih => simp [decodeStrings, List.filterMap_cons] at ih ⊢; exact ih

theorem decodeViewItem_viewToExportObj (v : View) :
    decodeViewItem (viewToExportObj v) = some (v.name, v.columns) := by
  have h1 : decodeViewItem (viewToExportObj v) =
      some (v.name, decodeStrings (v.columns.map Val.vStr)) := rfl
  rw [h1, decodeStrings_map_vStr]

theorem filterMap_decodeViewItem (l : List View) :
    (l.map viewToExportObj).filterMap decodeViewItem =
      l.map fun v => (v.name, v.columns) := by
  induction l with
  | nil => rfl
  | cons v t ih =>
      simp [List.filterMap_cons, decodeViewItem_viewToExportObj, ih]

theorem decodeViews_encode_objs (l : List View) :
    decodeViews (encodeList (l.map viewToExportObj)) =
      l.map fun v => (v.name, v.columns) := by
  cases l with
  | nil => rfl
  | cons v t =>
      simp only [List.map_cons, encodeList, List.isEmpty_cons,
        Bool.false_eq_true, if_false, decodeViews]
      exact filterMap_decodeViewItem (v :: t)

theorem insertDocsMerged_entries_snd (schema : List FieldDef) (db : DB)
    (docs : List Doc) :
    (insertDocsMerged schema db docs).entries.map Prod.snd =
      db.entries.map Prod.snd ++
        docs.map fun d => Stored.json (mergeWithSchema schema d) := by
  induction docs generalizing db with
  | nil => simp [insertDocsMerged]
  | cons d t ih =>
      simp only [insertDocsMerged, List.foldl_cons] at ih ⊢
      rw [ih]
      simp [insertRow]

theorem insertDocsMerged_views (schema : List FieldDef) (db : DB)
    (docs : List Doc) :
    (insertDocsMerged schema db docs).views = db.views := by
  induction docs generalizing db with
  | nil => rfl
  | cons d t ih =>
      simp only [insertDocsMerged, List.foldl_cons] at ih ⊢
      rw [ih]
      rfl

theorem insertViewsList_views (db : DB) (vs : List (String × List String)) :
    (insertViewsList db vs).views.map (fun v => (v.name, v.columns)) =
      db.views.map (fun v => (v.name, v.columns)) ++ vs := by
  induction vs generalizing db with
  | nil => simp [insertViewsList]
  | cons v t ih =>
      simp only [insertViewsList, List.foldl_cons] at ih ⊢
      rw [ih]
      simp [insertView]

theorem insertViewsList_entries (db : DB) (vs : List (String × List String)) :
    (insertViewsList db vs).entries = db.entries := by
  induction vs generalizing db with
  | nil => rfl
  | cons v t ih =>
      simp only [insertViewsList, List.foldl_cons] at ih ⊢
      rw [ih]
      rfl

/-- The key pointwise fact behind the round-trip: re-merging an exported
entry (its merged document with `ID` attached) agrees with the original
merged document at every key other than `ID`. -/
theorem findVal_remerged_attached (s : List FieldDef) (d : Doc) (idv : Val)
    (k : String) (hk : k ≠ "ID") :
    findVal (mergeWithSchema s
        (mergeWithSchema s (insertVal (mergeWithSchema s d) "ID" idv))) k =
      findVal (mergeWithSchema s d) k := by
  have hM : ((mergeWithSchema s d).map Prod.fst).Nodup :=
    nodupKeys_mergeWithSchema s d
  have hA : ((insertVal (mergeWithSchema s d) "ID" idv).map Prod.fst).Nodup :=
    nodupKeys_insertVal _ _ _ hM
  have hB : ((mergeWithSchema s
      (insertVal (mergeWithSchema s d) "ID" idv)).map Prod.fst).Nodup :=
    nodupKeys_mergeWithSchema _ _
  rw [findVal_mergeWithSchema, findLastVal_eq_findVal_of_nodup _ _ hB,
    findVal_mergeWithSchema, findLastVal_eq_findVal_of_nodup _ _ hA,
    findVal_insertVal, if_neg (fun h => hk h.symm),
    findVal_mergeWithSchema s d k]
  cases findLastVal d k <;>
    cases findVal (getEmptyRowFromSchema s) k <;> rfl

theorem importParsed_obj_ok (schema : List FieldDef) (db : DB) (E W : Val)
    (docs : List Doc) (vs : List (String × List String))
    (hE : decodeDocList E = some docs) (hW : decodeViews W = vs) :
    importParsed schema db (.vObj [("entries", E), ("views", W)]) =
      (insertViewsList (deleteAllViews
          (insertDocsMerged schema { db with entries := [] } docs)) vs,
        none) := by
  have h1 : findVal ([("entries", E), ("views", W)] : List (String × Val))
      "entries" = some E := rfl
  have h2 : findVal ([("entries", E), ("views", W)] : List (String × Val))
      "views" = some W := rfl
  simp only [importParsed, h1, h2, hE, hW]

theorem mergedDocs_eq (s : List FieldDef) (db : DB) :
    mergedDocs s db =
      db.entries.map fun e => mergeWithSchema s (storedDoc e.2) := by
  simp [mergedDocs, getAllRows, List.map_map, Function.comp]

theorem roundtrip_state (schema : List FieldDef) (db : DB) :
    importParsed schema freshDB (exportStore schema db) =
      (insertViewsList (deleteAllViews (insertDocsMerged schema freshDB
          ((getAllRows db).map fun r =>
            attachIDToDataMap r.1 (mergeWithSchema schema r.2))))
        (db.views.map fun v => (v.name, v.columns)), none) := by
  exact importParsed_obj_ok schema freshDB
    (encodeList ((getAllRows db).map fun r =>
      Val.vObj (attachIDToDataMap r.1 (mergeWithSchema schema r.2))))
    (encodeList ((getAllViews db).map viewToExportObj))
    ((getAllRows db).map fun r =>
      attachIDToDataMap r.1 (mergeWithSchema schema r.2))
    (db.views.map fun v => (v.name, v.columns))
    (decodeDocList_encode_objs _ _) (decodeViews_encode_objs _)

theorem mergedDocs_roundtrip (schema : List FieldDef) (db : DB) :
    mergedDocs schema (importParsed schema freshDB (exportStore schema db)).1 =
      db.entries.map fun e =>
        mergeWithSchema schema (mergeWithSchema schema
          (insertVal (mergeWithSchema schema (storedDoc e.2)) "ID"
            (Val.vInt e.1))) := by
  rw [roundtrip_state, mergedDocs_eq]
  have h1 : (insertViewsList (deleteAllViews (insertDocsMerged schema freshDB
      ((getAllRows db).map fun r =>
        attachIDToDataMap r.1 (mergeWithSchema schema r.2))))
      (db.views.map fun v => (v.name, v.columns))).entries =
      (insertDocsMerged schema freshDB
        ((getAllRows db).map fun r =>
          attachIDToDataMap r.1 (mergeWithSchema schema r.2))).entries := by
    rw [insertViewsList_entries]
    rfl
  rw [h1]
  have h2 : (insertDocsMerged schema freshDB
      ((getAllRows db).map fun r =>
        attachIDToDataMap r.1 (mergeWithSchema schema r.2))).entries.map
        Prod.snd =
      ((getAllRows db).map fun r =>
        attachIDToDataMap r.1 (mergeWithSchema schema r.2)).map
        fun d => Stored.json (mergeWithSchema schema d) := by
    rw [insertDocsMerged_entries_snd]
    rfl
  have h3 : ∀ (l : List (Nat × Stored)),
      (l.map fun e => mergeWithSchema schema (storedDoc e.2)) =
        (l.map Prod.snd).map fun st => mergeWithSchema schema (storedDoc st) := by
    intro l
    rw [List.map_map]
    rfl
  rw [h3, h2, List.map_map, getAllRows, List.map_map, List.map_map]
  rfl

theorem viewPairs_roundtrip (schema : List FieldDef) (db : DB) :
    viewPairs (importParsed schema freshDB (exportStore schema db)).1 =
      viewPairs db := by
  rw [roundtrip_state]
  show viewPairs (insertViewsList _ _) = _
  rw [viewPairs, insertViewsList_views]
  have : (deleteAllViews (insertDocsMerged schema freshDB
      ((getAllRows db).map fun r =>
        attachIDToDataMap r.1 (mergeWithSchema schema r.2)))).views = [] := rfl
  rw [this]
  rfl

/-- C3 amended: exporting the full store and importing the buffer into a
freshly initialized store under the same schema succeeds and yields the
same number of merged documents, each agreeing with the original merged
document at every key except the reserved `ID` key (which export attaches
and import then stores into the document), and the same set of views
(name and columns; view ids are reassigned). -/
theorem c3_export_import_roundtrip (schema : List FieldDef) (db : DB) :
    (importParsed schema freshDB (exportStore schema db)).2 = none ∧
    (mergedDocs schema
        (importParsed schema freshDB (exportStore schema db)).1).length =
      (mergedDocs schema db).length ∧
    (∀ p ∈ (mergedDocs schema (importParsed schema freshDB
        (exportStore schema db)).1).zip (mergedDocs schema db),
      ∀ k, k ≠ "ID" → findVal p.1 k = findVal p.2 k) ∧
    viewPairs (importParsed schema freshDB (exportStore schema db)).1 =
      viewPairs db := by
  refine ⟨?_, ?_, ?_, ?_⟩
  · rw [roundtrip_state]
  · rw [mergedDocs_roundtrip, mergedDocs_eq]
    simp
  · intro p hp k hk
    rw [mergedDocs_roundtrip, mergedDocs_eq, List.zip_map'] at hp
    obtain ⟨e, he, rfl⟩ := List.mem_map.mp hp
    exact findVal_remerged_attached schema (storedDoc e.2) (Val.vInt e.1) k hk
  · exact viewPairs_roundtrip schema db

/-- C3 counterexample: under schema `[a: string]`, a store with the single
entry id 1 and data `{}` has the single merged document `{"a": ""}`; after
export and re-import into a fresh store the single merged document is
`{"a": "", "ID": 1}` — the sets of merged documents differ (the reserved
`ID` key attached by export is imported back into the document), so the
round-trip is not the identity on merged documents. -/
theorem c3_counterexample :
    mergedDocs [⟨"a", "string", "a"⟩]
        (importParsed [⟨"a", "string", "a"⟩] freshDB
          (exportStore [⟨"a", "string", "a"⟩]
            ⟨[(1, Stored.json [])], 1, [], 0⟩)).1 =
      [[("a", Val.vStr ""), ("ID", Val.vInt 1)]] ∧
    mergedDocs [⟨"a", "string", "a"⟩] ⟨[(1, Stored.json [])], 1, [], 0⟩ =
      [[("a", Val.vStr "")]] ∧
    ¬ (∀ k, findVal ([("a", Val.vStr ""), ("ID", Val.vInt 1)] : Doc) k =
        findVal ([("a", Val.vStr "")] : Doc) k) := by
  refine ⟨rfl, rfl, fun h => ?_⟩
  have h2 := h "ID"
  simp [findVal] at h2
